import Mathlib

/-! Verification of the Dubai-Real-Estate-GPT data pipeline.

Shallow embedding of:
- `src/backend/utils/phone_utils.py` (normalize_phone)
- `src/database/scripts/populate_normalized_tables.py` (normalize_name, cluster_owners)
- `src/backend/utils/community_aliases.py` (_resolve_alias)
- `src/backend/core/analytics_engine.py` (market_stats, transaction_velocity)
- `src/scripts/rebuild_properties.py` (the property-rebuild SQL)

Machine floats are modelled by exact rationals, pandas NaN results by
`Option.none`, SQL NULL by `Option.none`, network/database reads by explicit
list or oracle parameters.  String case mapping follows the ASCII behaviour of
the Python originals on the inputs of interest.
-/

namespace DubaiGPT

/-! ### Phone normalization (src/backend/utils/phone_utils.py, normalize_phone) -/

/-- Python `re.sub(r'\D', '', raw_phone)`: keep only digit characters. -/
def digitsOf (s : String) : List Char := s.data.filter Char.isDigit

/-- Python `digits[-9:]`: the last nine characters. -/
def last9 (d : List Char) : List Char := d.drop (d.length - 9)

/-- The `if digits.startswith('971') ... elif ... elif len(digits) == 9` chain of
`normalize_phone`; `none` means the chain fell through without returning. -/
def phoneMainBranch (d : List Char) : Option (List Char) :=
  if d.take 3 = ['9', '7', '1'] then
    if d.length = 12 then some ('+' :: d) else none
  else if d.take 1 = ['0'] then
    if d.length = 10 then some ('+' :: '9' :: '7' :: '1' :: d.drop 1) else none
  else if d.length = 9 then
    some ('+' :: '9' :: '7' :: '1' :: d)
  else none

/-- `normalize_phone` acting on the already-stripped digit list. -/
def normPhoneDigits (d : List Char) : Option (List Char) :=
  if d = [] then none
  else
    match phoneMainBranch d with
    | some r => some r
    | none =>
      if 9 ≤ d.length then some ('+' :: '9' :: '7' :: '1' :: last9 d) else none

/-- `normalize_phone(raw_phone)` from `phone_utils.py` (string input; the Python
`None`/non-string guard is the type). -/
def normalize_phone (raw : String) : Option String :=
  (normPhoneDigits (digitsOf raw)).map String.mk

/-! ### Name normalization
(src/database/scripts/populate_normalized_tables.py, normalize_name) -/

/-- Python `str.strip` whitespace class (the characters relevant here). -/
def isPySpace (c : Char) : Bool :=
  c = ' ' || c = '\t' || c = '\n' || c = '\r' || c = '\x0b' || c = '\x0c'

/-- Python `str.strip()`: drop leading and trailing whitespace. -/
def pyStrip (l : List Char) : List Char :=
  ((l.dropWhile isPySpace).reverse.dropWhile isPySpace).reverse

/-- Worker for `replaceAll`, structurally recursive on a fuel that bounds the
list length (each step consumes at least the head character, so the fuel never
runs out when it starts at the list length). -/
def replaceAllGo (p : Char) (pat rep : List Char) : ℕ → List Char → List Char
  | _, [] => []
  | 0, l => l
  | fuel + 1, c :: rest =>
    if c = p ∧ rest.take pat.length = pat then
      rep ++ replaceAllGo p pat rep fuel (rest.drop pat.length)
    else
      c :: replaceAllGo p pat rep fuel rest

/-- Python `str.replace(pat, rep)` for a non-empty pattern `p :: pat`:
replace every non-overlapping occurrence, scanning left to right, without
re-scanning the replacement text. -/
def replaceAll (p : Char) (pat rep : List Char) (l : List Char) : List Char :=
  replaceAllGo p pat rep l.length l

/-- The suffix list of `normalize_name`, in source order. -/
def legalSuffixes : List String := ["LLC", "L.L.C", "LIMITED", "LTD", "CO", "COMPANY"]

/-- `normalize_name(name)` from `populate_normalized_tables.py`:
upper-case, strip, one `replace("  ", " ")` pass, then for each suffix one
`replace(" " + suffix, "")` pass, then strip. -/
def normalize_name (name : String) : String :=
  if name = "" then ""
  else
    let n1 := pyStrip (name.data.map Char.toUpper)
    let n2 := replaceAll ' ' [' '] [' '] n1
    let n3 := legalSuffixes.foldl (fun acc suf => replaceAll ' ' suf.data [] acc) n2
    String.mk (pyStrip n3)

/-! ### Alias resolution (src/backend/utils/community_aliases.py) -/

/-- First binding for key `k` in an insertion-ordered association list. -/
def lookupStr (m : List (String × String)) (k : String) : Option String :=
  match m.find? (fun e => e.1 == k) with
  | some e => some e.2
  | none => none

/-- The `STATIC_ALIASES_BY_TYPE["community"]` table, in source order. -/
def staticCommunityAliases : List (String × String) :=
  [("downtown dubai", "Burj Khalifa"), ("downtown", "Burj Khalifa"),
   ("burj khalifa district", "Burj Khalifa"), ("difc", "Burj Khalifa"),
   ("old town", "Burj Khalifa"), ("souq al bahar", "Burj Khalifa"),
   ("business bay", "Business Bay"), ("bay square", "Business Bay"),
   ("palm jumeirah", "Palm Jumeirah"), ("the palm", "Palm Jumeirah"),
   ("palm", "Palm Jumeirah"), ("the crescent", "Palm Jumeirah"),
   ("dubai marina", "Dubai Marina"), ("marina", "Dubai Marina"),
   ("jbr", "Jumeirah Beach Residence"),
   ("jumeirah village circle", "Jumeirah Village Circle"),
   ("jvc", "Jumeirah Village Circle"),
   ("jumeirah village triangle", "Jumeirah Village Triangle"),
   ("jvt", "Jumeirah Village Triangle"),
   ("arabian ranches", "Arabian Ranches"),
   ("arabian ranches 2", "Arabian Ranches 2"),
   ("arabian ranches ii", "Arabian Ranches 2"),
   ("tilal al ghaf", "Tilal Al Ghaf"), ("mudon", "Mudon"),
   ("damac hills", "DAMAC Hills"), ("damac lagoons", "DAMAC Lagoons"),
   ("la mer", "La Mer"), ("jumeirah bay", "Jumeirah Bay Island"),
   ("bluewaters", "Bluewaters Island"),
   ("madinat jumeirah living", "Madinat Jumeirah Living"),
   ("al qusais", "Al Qusais"), ("qusais", "Al Qusais"),
   ("al barsha", "Al Barsha"), ("mirdif", "Mirdif"), ("deira", "Deira"),
   ("al karama", "Al Karama"),
   ("mbr city", "Mohammed Bin Rashid City"),
   ("mohammed bin rashid city", "Mohammed Bin Rashid City"),
   ("meydan", "Meydan"), ("dubai hills", "Dubai Hills Estate"),
   ("dubai hills estate", "Dubai Hills Estate"),
   ("dubai creek harbour", "Dubai Creek Harbour"),
   ("expo city", "Expo City Dubai"), ("dubailand", "Dubailand")]

/-- The `STATIC_ALIASES_BY_TYPE["building"]` table, in source order. -/
def staticBuildingAliases : List (String × String) :=
  [("cayan tower", "Cayan Tower"), ("princess tower", "Princess Tower"),
   ("burj khalifa", "Burj Khalifa"),
   ("address downtown", "The Address Downtown Dubai"),
   ("address sky view", "The Address Sky View"),
   ("address fountain views", "The Address Residence Fountain Views"),
   ("seven palm", "Seven Palm"), ("serenia living", "Serenia Living"),
   ("mjl laila", "MJL Laila"), ("mjl jadeel", "MJL Jadeel")]

/-- `_resolve_alias(user_input, alias_type)`.  `aliasMap` is the loaded alias
map (static seed possibly merged with remote rows); `dbResult` is the value
returned by `lookup_alias_in_db(user_input, alias_type)` — that helper returns
`None` when credentials are missing, the request fails, raises, or finds no
row, so every failure mode of the slow path is a `none` here. -/
def resolveAlias (aliasMap : List (String × String)) (dbResult : Option String)
    (userInput : String) : String :=
  if userInput = "" then userInput
  else
    let normalized := String.mk ((pyStrip userInput.data).map Char.toLower)
    match lookupStr aliasMap normalized with
    | some c => c
    | none =>
      match dbResult with
      | some c => if c = "" then userInput else c
      | none => userInput

/-! ### Analytics engine (src/backend/core/analytics_engine.py)

A fetched transaction row, with the columns `market_stats` and
`transaction_velocity` read. `none` models a NULL/NaN cell. -/

structure Txn where
  price : Option ℚ
  sizeSqft : Option ℚ
  txDate : Int
deriving DecidableEq, Repr

/-- Pandas mask `df['price'] > 0` (NaN compares false). -/
def pricePos (t : Txn) : Bool :=
  match t.price with
  | some p => decide (0 < p)
  | none => false

/-- Pandas mask `df['size_sqft'] >= 1076`. -/
def sizeOk (t : Txn) : Bool :=
  match t.sizeSqft with
  | some s => decide ((1076 : ℚ) ≤ s)
  | none => false

/-- The derived column `df['psf'] = df['price'] / df['size_sqft']`. -/
def psfOf (t : Txn) : Option ℚ :=
  match t.price, t.sizeSqft with
  | some p, some s => some (p / s)
  | _, _ => none

/-- Pandas mask `df['psf'].notna() & (df['psf'] > 0)`. -/
def psfOk (t : Txn) : Bool :=
  match psfOf t with
  | some v => decide (0 < v)
  | none => false

/-- The three data-quality filters of `market_stats`, applied in source order. -/
def qualityFiltered (ts : List Txn) : List Txn :=
  ((ts.filter pricePos).filter sizeOk).filter psfOk

/-- Pandas `Series.mean()`: NaN (`none`) on an empty series. -/
def meanQ (l : List ℚ) : Option ℚ :=
  if l = [] then none else some (l.sum / l.length)

/-- Pandas `Series.median()`: NaN on empty, middle element or average of the
two middle elements otherwise. -/
def medianQ (l : List ℚ) : Option ℚ :=
  let s := List.insertionSort (· ≤ ·) l
  let n := s.length
  if n = 0 then none
  else if n % 2 = 1 then some (s.getD (n / 2) 0)
  else some ((s.getD (n / 2 - 1) 0 + s.getD (n / 2) 0) / 2)

/-- Pandas `Series.quantile(q)` with the default linear interpolation:
NaN on empty, otherwise interpolate at position `q * (n - 1)` of the sorted
values. -/
def quantileQ (q : ℚ) (l : List ℚ) : Option ℚ :=
  let s := List.insertionSort (· ≤ ·) l
  let n := s.length
  if n = 0 then none
  else
    let pos : ℚ := q * ((n : ℚ) - 1)
    let lo : ℕ := (⌊pos⌋).toNat
    let frac : ℚ := pos - (lo : ℚ)
    some (s.getD lo 0 + frac * (s.getD (lo + 1) 0 - s.getD lo 0))

/-- The statistics dict built by `market_stats`; an `Option` field is NaN when
`none`. -/
structure MarketStats where
  avgPrice : Option ℚ
  medianPrice : Option ℚ
  avgPsf : Option ℚ
  medianPsf : Option ℚ
  totalVolume : ℚ
  txCount : ℕ
  percentile25 : Option ℚ
  percentile75 : Option ℚ
deriving DecidableEq, Repr

/-- Result of `market_stats`: either the `error` dict or the statistics dict. -/
inductive StatsResult
  | fail : String → StatsResult
  | ok : MarketStats → StatsResult
deriving DecidableEq, Repr

/-- True exactly when the result dict carries the `error` key. -/
def StatsResult.isFail : StatsResult → Bool
  | .fail _ => true
  | .ok _ => false

/-- `AnalyticsEngine.market_stats` on the fetched transaction rows `ts`
(the Supabase filter building and fetching is the I/O boundary; its result is
the parameter). -/
def market_stats (ts : List Txn) : StatsResult :=
  if ts = [] then .fail "No data found"
  else
    let f := qualityFiltered ts
    let prices := f.filterMap (fun t => t.price)
    let psfs := f.filterMap psfOf
    .ok
      { avgPrice := meanQ prices
        medianPrice := medianQ prices
        avgPsf := meanQ psfs
        medianPsf := medianQ psfs
        totalVolume := prices.sum
        txCount := f.length
        percentile25 := quantileQ (1 / 4) prices
        percentile75 := quantileQ (3 / 4) prices }

/-- The dict built by `transaction_velocity`. -/
structure Velocity where
  velocity : ℚ
  windowDays : ℕ
  recentCount : ℕ
  avgPerDay : ℚ
  avgPerWeek : ℚ
  avgPerMonth : ℚ
deriving DecidableEq, Repr

/-- Result of `transaction_velocity`. -/
inductive VelocityResult
  | fail : String → VelocityResult
  | ok : Velocity → VelocityResult
deriving DecidableEq, Repr

/-- Maximum of a list of dates, as used through `df['transaction_date'].max()`
(only ever applied to a non-empty column). -/
def listMaxInt : List Int → Int
  | [] => 0
  | x :: xs => xs.foldl max x

/-- `AnalyticsEngine.transaction_velocity` on the fetched rows: sort by date,
cut off at the latest date minus the window, count and divide. -/
def transaction_velocity (ts : List Txn) (windowDays : ℕ) : VelocityResult :=
  if ts = [] then .fail "No data found"
  else
    let sorted := List.insertionSort (fun a b : Txn => a.txDate ≤ b.txDate) ts
    let cutoff : Int := listMaxInt (sorted.map (fun t => t.txDate)) - windowDays
    let recent := sorted.filter (fun t => decide (cutoff ≤ t.txDate))
    let v : ℚ := (recent.length : ℚ) / (windowDays : ℚ)
    .ok ⟨v, windowDays, recent.length, v, v * 7, v * 30⟩

/-- The `ok` payload `transaction_velocity` builds from a window and a count
(used to state what the function returns). -/
def velocityPayload (w c : ℕ) : VelocityResult :=
  .ok ⟨(c : ℚ) / w, w, c, (c : ℚ) / w, (c : ℚ) / w * 7, (c : ℚ) / w * 30⟩

/-! ### Owner clustering (src/database/scripts/populate_normalized_tables.py)

`rapidfuzz.fuzz.ratio` is the normalized InDel similarity: with
`d = len1 + len2 - 2 * lcs`, the score is `100 * (1 - d / (len1 + len2))`,
that is `200 * lcs / (len1 + len2)`, and `100` for two empty strings. -/

/-- One DP step of the longest-common-subsequence table: given char `c` of the
first word, the remaining chars of the second word, the tail of the previous
row starting at the current column, and the value just computed in the new
row, produce the rest of the new row. -/
def lcsStep (c : Char) : List Char → List ℕ → ℕ → List ℕ
  | [], _, _ => []
  | b :: bs, prev, cur =>
    let pj := prev.headD 0
    let pj1 := prev.tail.headD 0
    let nj := if c = b then pj + 1 else max cur pj1
    nj :: lcsStep c bs prev.tail nj

/-- Length of the longest common subsequence, by row-wise dynamic
programming. -/
def lcsLen (a b : List Char) : ℕ :=
  (a.foldl (fun prev c => 0 :: lcsStep c b prev 0) (List.replicate (b.length + 1) 0)).getLastD 0

/-- `rapidfuzz.fuzz.ratio(s, t)` as an exact rational:
`200 * lcs / (len1 + len2)`, and 100 for two empty strings. -/
def fuzzScore (s t : String) : ℚ :=
  let tot := s.data.length + t.data.length
  if tot = 0 then 100 else mkRat (200 * lcsLen s.data t.data) tot

/-- One owner identity as consumed by `cluster_owners`: the record's
`raw_name`/`raw_phone` after the `or ""` coalescing at the top of the loop. -/
structure Identity where
  rawName : String
  rawPhone : String
deriving DecidableEq, Repr

/-- The local `normalize_phone` of `populate_normalized_tables.py`: returns
`""` for a falsy value and the input unchanged otherwise. -/
def normalizePhoneLocal (phone : String) : String :=
  if phone = "" then "" else phone

/-- Python dict read `m[k]` / `k in m` for an insertion-ordered `String → ℕ`
map: the binding of the first (and only) entry for the key. -/
def lookupNat : List (String × ℕ) → String → Option ℕ
  | [], _ => none
  | e :: rest, k => if e.1 = k then some e.2 else lookupNat rest k

/-- Python dict assignment `m[k] = v`: overwrite in place when the key exists
(keeping its insertion position), append otherwise. -/
def upsertNat : List (String × ℕ) → String → ℕ → List (String × ℕ)
  | [], k, v => [(k, v)]
  | e :: rest, k, v => if e.1 = k then (k, v) :: rest else e :: upsertNat rest k v

/-- Strategy 2 of `cluster_owners`: walk `name_to_cluster` in insertion order
and return the cluster of the first name whose similarity reaches 90. -/
def nameSearch : List (String × ℕ) → String → Option ℕ
  | [], _ => none
  | e :: rest, nn =>
    if (90 : ℚ) ≤ fuzzScore nn e.1 then some e.2 else nameSearch rest nn

/-- The loop state of `cluster_owners`: the `clusters` dict (insertion-ordered,
members in append order), the two lookup dicts, and the fresh-id counter
standing in for `uuid.uuid4()` (each draw is a fresh identifier). -/
structure CState where
  clusters : List (ℕ × List Identity)
  phoneTo : List (String × ℕ)
  nameTo : List (String × ℕ)
  next : ℕ
deriving DecidableEq, Repr

/-- Keys of the `clusters` dict. -/
def clusterKeys (cs : List (ℕ × List Identity)) : List ℕ := cs.map (fun p => p.1)

/-- `clusters[cluster_id].append(owner)`. -/
def addMember (cs : List (ℕ × List Identity)) (cid : ℕ) (o : Identity) :
    List (ℕ × List Identity) :=
  cs.map (fun p => if p.1 = cid then (p.1, p.2 ++ [o]) else p)

/-- `if cluster_id not in clusters: clusters[cluster_id] = []`. -/
def ensureKey (cs : List (ℕ × List Identity)) (cid : ℕ) : List (ℕ × List Identity) :=
  if cid ∈ clusterKeys cs then cs else cs ++ [(cid, [])]

/-- Strategies 1 and 2 of `cluster_owners`: exact phone match first, else (and
only for a non-empty normalized name) the first fuzzy name match; `none` sends
the loop to strategy 3. -/
def stepFound (s : CState) (o : Identity) : Option ℕ :=
  let np := normalizePhoneLocal o.rawPhone
  let nn := normalize_name o.rawName
  match (if np = "" then none else lookupNat s.phoneTo np) with
  | some c => some c
  | none => if nn = "" then none else nameSearch s.nameTo nn

/-- One iteration of the `for owner in owners` loop of `cluster_owners`:
pick or create the cluster, append the owner, update both lookup dicts.
Returns the new state and the `cluster_id` assigned to this owner. -/
def stepA (s : CState) (o : Identity) : CState × ℕ :=
  let np := normalizePhoneLocal o.rawPhone
  let nn := normalize_name o.rawName
  match stepFound s o with
  | some c =>
    ⟨{ clusters := addMember (ensureKey s.clusters c) c o
       phoneTo := if np = "" then s.phoneTo else upsertNat s.phoneTo np c
       nameTo := if nn = "" then s.nameTo else upsertNat s.nameTo nn c
       next := s.next }, c⟩
  | none =>
    let c := s.next
    ⟨{ clusters := addMember (s.clusters ++ [(c, [])]) c o
       phoneTo := if np = "" then s.phoneTo else upsertNat s.phoneTo np c
       nameTo := if nn = "" then s.nameTo else upsertNat s.nameTo nn c
       next := s.next + 1 }, c⟩

/-- The empty starting state of a resolution run. -/
def initCState : CState := ⟨[], [], [], 0⟩

/-- Run the `cluster_owners` loop from a state, also recording the
`cluster_id` assigned to each owner, in input order. -/
def runClusterAux : CState → List Identity → CState × List ℕ
  | s, [] => (s, [])
  | s, o :: rest =>
    let p := stepA s o
    let q := runClusterAux p.1 rest
    (q.1, p.2 :: q.2)

/-- `cluster_owners(owners)`: the final clusters dict. -/
def cluster_owners (os : List Identity) : List (ℕ × List Identity) :=
  (runClusterAux initCState os).1.clusters

/-- The `cluster_id` written onto each owner record, in input order. -/
def clusterAssign (os : List Identity) : List ℕ :=
  (runClusterAux initCState os).2

/-- Concatenation of all cluster member lists. -/
def membersJoin (cs : List (ℕ × List Identity)) : List Identity :=
  (cs.map (fun p => p.2)).flatten

/-- The structural invariant of the `cluster_owners` loop state: the clusters
dict has no duplicate keys, both lookup dicts point into it, and every key is
below the fresh-id counter. -/
def CInv (s : CState) : Prop :=
  (clusterKeys s.clusters).Nodup
  ∧ (∀ e ∈ s.phoneTo, e.2 ∈ clusterKeys s.clusters)
  ∧ (∀ e ∈ s.nameTo, e.2 ∈ clusterKeys s.clusters)
  ∧ (∀ k ∈ clusterKeys s.clusters, k < s.next)

/-! ### Property rebuild (src/scripts/rebuild_properties.py)

The staged `INSERT ... WITH ranked AS (...)` statement, over in-memory rows. -/

/-- A `transactions` row as read by the rebuild SQL; `none` is NULL. -/
structure RawTx where
  id : ℕ
  community : Option String
  building : Option String
  unit : Option String
  propertyType : Option String
  bedrooms : Option ℕ
  bathrooms : Option ℕ
  sizeSqft : Option ℚ
  masterCommunity : Option String
  subCommunity : Option String
  buyerName : Option String
  buyerPhone : Option String
  price : Option ℚ
  txDate : Option Int
deriving DecidableEq, Repr

/-- An `owners` row as read by the lateral join. -/
structure OwnerRow where
  id : ℕ
  ownerType : Option String
  normPhone : Option String
  normName : Option String
  createdAt : Option Int
deriving DecidableEq, Repr

/-- `a` strictly precedes `b` under `ORDER BY transaction_date DESC NULLS
LAST, id DESC`. -/
def laterRank (a b : RawTx) : Bool :=
  match a.txDate, b.txDate with
  | some x, some y => if x = y then decide (b.id < a.id) else decide (y < x)
  | some _, none => true
  | none, some _ => false
  | none, none => decide (b.id < a.id)

/-- The row with `rn = 1` of a partition: first element under the window
order (ties beyond `(transaction_date, id)` resolved by input order). -/
def pickFirstRanked (g : List RawTx) : Option RawTx :=
  match g with
  | [] => none
  | t :: rest => some (rest.foldl (fun best c => if laterRank c best then c else best) t)

/-- The `PARTITION BY t.community, t.building, t.unit` key (SQL window
partitioning groups NULLs together, hence plain `Option` equality). -/
def txKey (t : RawTx) : Option String × Option String × Option String :=
  (t.community, t.building, t.unit)

/-- The `WHERE t.unit IS NOT NULL AND t.building IS NOT NULL` filter. -/
def eligibleTx (ts : List RawTx) : List RawTx :=
  ts.filter (fun t => t.building.isSome && t.unit.isSome)

/-- `regexp_replace(x, '\D', '', 'g')`. -/
def stripDigitsStr (s : String) : String := String.mk (s.data.filter Char.isDigit)

/-- SQL `TRIM` (strips spaces). -/
def sqlTrim (s : String) : String :=
  String.mk (((s.data.dropWhile (fun c => c = ' ')).reverse.dropWhile (fun c => c = ' ')).reverse)

/-- `o.norm_phone IS NULL OR o.norm_phone = ''`. -/
def nullOrEmpty (o : Option String) : Bool :=
  match o with
  | none => true
  | some s => s == ""

/-- The lateral-join match predicate between the latest transaction and an
`owners` row. -/
def ownerMatches (t : RawTx) (o : OwnerRow) : Bool :=
  (match o.normPhone with
   | some p => (!(p == "")) && (p == stripDigitsStr (t.buyerPhone.getD ""))
   | none => false)
  ||
  (nullOrEmpty o.normPhone && (t.buyerPhone.getD "" == "") &&
    (o.normName == some ((sqlTrim (t.buyerName.getD "")).map Char.toUpper)))

/-- `a` strictly precedes `b` under `ORDER BY o.created_at DESC NULLS LAST`. -/
def laterCreated (a b : OwnerRow) : Bool :=
  match a.createdAt, b.createdAt with
  | some x, some y => decide (y < x)
  | some _, none => true
  | _, _ => false

/-- The lateral subquery: matching owners ordered by creation time, `LIMIT 1`. -/
def pickOwner (owners : List OwnerRow) (t : RawTx) : Option OwnerRow :=
  match owners.filter (ownerMatches t) with
  | [] => none
  | o :: rest => some (rest.foldl (fun best c => if laterCreated c best then c else best) o)

/-- `COALESCE(o.owner_type, 'individual')`. -/
def ownerTypeCoalesced (o : OwnerRow) : String := o.ownerType.getD "individual"

/-- `owner_type IN ('individual', 'unknown')`. -/
def isIndividualType (s : String) : Bool := s == "individual" || s == "unknown"

/-- A staged `properties` row (the embedding-related always-NULL columns and
constant model name are omitted as constants). -/
structure PropRow where
  community : Option String
  building : Option String
  unit : Option String
  propertyType : Option String
  bedrooms : Option ℕ
  bathrooms : Option ℕ
  sizeSqft : Option ℚ
  status : String
  lastPrice : Option ℚ
  lastTxDate : Option Int
  ownerId : Option ℕ
  lastTransactionId : ℕ
  buyerName : Option String
  buyerPhone : Option String
  needsOwnerReview : Bool
  institutionalOwnerId : Option ℕ
  masterCommunity : Option String
  subCommunity : Option String
deriving DecidableEq, Repr

/-- The SELECT list applied to one `latest` row `t`, including the owner
linkage and the `meta` flags. -/
def mkPropRow (owners : List OwnerRow) (t : RawTx) : PropRow :=
  let om := pickOwner owners t
  let institutional : Bool :=
    match om with
    | some o => !(isIndividualType (ownerTypeCoalesced o))
    | none => false
  { community := t.community
    building := t.building
    unit := t.unit
    propertyType := t.propertyType
    bedrooms := t.bedrooms
    bathrooms := t.bathrooms
    sizeSqft := t.sizeSqft
    status := "owned"
    lastPrice := t.price
    lastTxDate := t.txDate
    ownerId :=
      match om with
      | some o => if isIndividualType (ownerTypeCoalesced o) then some o.id else none
      | none => none
    lastTransactionId := t.id
    buyerName := t.buyerName
    buyerPhone := t.buyerPhone
    needsOwnerReview := institutional
    institutionalOwnerId :=
      match om with
      | some o => if isIndividualType (ownerTypeCoalesced o) then none else some o.id
      | none => none
    masterCommunity := match t.masterCommunity with | some m => some m | none => t.community
    subCommunity := match t.subCommunity with | some m => some m | none => t.community }

/-- The staged row for one partition key, if the key has eligible rows. -/
def buildFor (elig : List RawTx) (owners : List OwnerRow)
    (k : Option String × Option String × Option String) : Option PropRow :=
  (pickFirstRanked (elig.filter (fun t => decide (txKey t = k)))).map (mkPropRow owners)

/-- The whole staged insert: one row per distinct partition key of the
eligible transactions, built from the `rn = 1` transaction of that key. -/
def rebuildProperties (ts : List RawTx) (owners : List OwnerRow) : List PropRow :=
  (((eligibleTx ts).map txKey).dedup).filterMap (buildFor (eligibleTx ts) owners)

/-- The partition key a staged row carries. -/
def rowKey (r : PropRow) : Option String × Option String × Option String :=
  (r.community, r.building, r.unit)

/-! ## Theorems

### Phone normalization lemmas -/

theorem phoneMainBranch_length {d r : List Char} (h : phoneMainBranch d = some r) :
    9 ≤ d.length := by
  unfold phoneMainBranch at h
  split_ifs at h with h1 h2 h3 h4 h5 <;> simp_all

theorem digitsOf_all_digits (s : String) : ∀ c ∈ digitsOf s, c.isDigit := by
  intro c hc
  exact (List.mem_filter.mp hc).2

theorem normPhoneDigits_salvage (d : List Char) (h9 : 9 ≤ d.length)
    (hA : ¬(d.take 3 = ['9', '7', '1'] ∧ d.length = 12))
    (hB : ¬(d.take 1 = ['0'] ∧ d.length = 10)) :
    normPhoneDigits d = some ('+' :: '9' :: '7' :: '1' :: last9 d) := by
  have hne : d ≠ [] := by
    intro h
    subst h
    simp at h9
  by_cases h971 : d.take 3 = ['9', '7', '1']
  · have h12 : d.length ≠ 12 := fun h => hA ⟨h971, h⟩
    simp [normPhoneDigits, phoneMainBranch, hne, h971, h12, h9]
  · by_cases h0 : d.take 1 = ['0']
    · have h10 : d.length ≠ 10 := fun h => hB ⟨h0, h⟩
      simp [normPhoneDigits, phoneMainBranch, hne, h971, h0, h10, h9]
    · by_cases hl9 : d.length = 9
      · have hlast : last9 d = d := by
          unfold last9
          rw [hl9]
          simp
        simp [normPhoneDigits, phoneMainBranch, hne, h971, h0, hl9, hlast]
      · simp [normPhoneDigits, phoneMainBranch, hne, h971, h0, hl9, h9]

/-- Claim C6: `normalize_phone` first strips all non-digit characters, then
maps the 971-prefixed 12-digit form, the leading-0 10-digit local form and the
bare 9-digit form to the `+971` key, salvages any other input with at least 9
digits by keeping the last 9, and returns null when fewer than 9 digits
remain. -/
theorem c6_normalize_phone_branches (s : String) :
    (∀ t : String, digitsOf t = digitsOf s → normalize_phone t = normalize_phone s)
    ∧ ((digitsOf s).length < 9 → normalize_phone s = none)
    ∧ ((digitsOf s).take 3 = ['9', '7', '1'] → (digitsOf s).length = 12 →
        normalize_phone s = some (String.mk ('+' :: digitsOf s)))
    ∧ ((digitsOf s).take 3 ≠ ['9', '7', '1'] → (digitsOf s).take 1 = ['0'] →
        (digitsOf s).length = 10 →
        normalize_phone s = some (String.mk ('+' :: '9' :: '7' :: '1' :: (digitsOf s).drop 1)))
    ∧ ((digitsOf s).length = 9 →
        normalize_phone s = some (String.mk ('+' :: '9' :: '7' :: '1' :: digitsOf s)))
    ∧ (9 ≤ (digitsOf s).length →
        ¬((digitsOf s).take 3 = ['9', '7', '1'] ∧ (digitsOf s).length = 12) →
        ¬((digitsOf s).take 1 = ['0'] ∧ (digitsOf s).length = 10) →
        normalize_phone s = some (String.mk ('+' :: '9' :: '7' :: '1' :: last9 (digitsOf s)))) := by
  refine ⟨?_, ?_, ?_, ?_, ?_, ?_⟩
  · intro t ht
    unfold normalize_phone
    rw [ht]
  · intro h
    have hmain : phoneMainBranch (digitsOf s) = none := by
      cases hmb : phoneMainBranch (digitsOf s) with
      | none => rfl
      | some r =>
        have := phoneMainBranch_length hmb
        omega
    unfold normalize_phone normPhoneDigits
    rw [hmain]
    by_cases hne : digitsOf s = []
    · simp [hne]
    · simp [hne]
      omega
  · intro h971 h12
    have hne : digitsOf s ≠ [] := by
      intro h
      rw [h] at h12
      simp at h12
    unfold normalize_phone normPhoneDigits phoneMainBranch
    simp [hne, h971, h12]
  · intro h971 h0 h10
    have hne : digitsOf s ≠ [] := by
      intro h
      rw [h] at h10
      simp at h10
    unfold normalize_phone normPhoneDigits phoneMainBranch
    simp [hne, h971, h0, h10]
  · intro h9
    by_cases h971 : (digitsOf s).take 3 = ['9', '7', '1']
    · have hsal := normPhoneDigits_salvage (digitsOf s) (by omega)
        (fun hc => by omega) (fun hc => by
          have h1 : (digitsOf s).take 1 = ((digitsOf s).take 3).take 1 := by
            simp [List.take_take]
          rw [h971] at h1
          rw [hc.1] at h1
          simp at h1)
      have hlast : last9 (digitsOf s) = digitsOf s := by
        unfold last9
        rw [h9]
        simp
      unfold normalize_phone
      rw [hsal, hlast]
      rfl
    · by_cases h0 : (digitsOf s).take 1 = ['0']
      · by_cases h10 : (digitsOf s).length = 10
        · omega
        · have hsal := normPhoneDigits_salvage (digitsOf s) (by omega)
            (fun hc => h971 hc.1) (fun hc => h10 hc.2)
          have hlast : last9 (digitsOf s) = digitsOf s := by
            unfold last9
            rw [h9]
            simp
          unfold normalize_phone
          rw [hsal, hlast]
          rfl
      · have hne : digitsOf s ≠ [] := by
          intro h
          rw [h] at h9
          simp at h9
        unfold normalize_phone normPhoneDigits phoneMainBranch
        simp [hne, h971, h0, h9]
  · intro h9 hA hB
    have hsal := normPhoneDigits_salvage (digitsOf s) h9 hA hB
    unfold normalize_phone
    rw [hsal]
    rfl

/-- Witness for C6 at concrete inputs exercising the hypotheses. -/
theorem c6_witness :
    normalize_phone "+97150 123 4567" = some "+971501234567"
    ∧ normalize_phone "05012345" = none := by
  constructor
  · exact ((c6_normalize_phone_branches "+97150 123 4567").2.2.1 (by decide) (by decide))
  · exact ((c6_normalize_phone_branches "05012345").2.1 (by decide))

theorem normPhoneDigits_short {d : List Char} (h : d.length < 9) :
    normPhoneDigits d = none := by
  by_cases hne : d = []
  · simp [normPhoneDigits, hne]
  · have hmb : phoneMainBranch d = none := by
      cases hm : phoneMainBranch d with
      | none => rfl
      | some r => exact absurd (phoneMainBranch_length hm) (by omega)
    unfold normPhoneDigits
    rw [if_neg hne, hmb]
    rw [if_neg (by omega)]

theorem normPhoneDigits_971 {d : List Char} (h1 : d.take 3 = ['9', '7', '1'])
    (h2 : d.length = 12) : normPhoneDigits d = some ('+' :: d) := by
  have hne : d ≠ [] := by
    intro hempty
    rw [hempty] at h2
    simp at h2
  simp [normPhoneDigits, phoneMainBranch, hne, h1, h2]

theorem take_one_ne_971 {d : List Char} (h1 : d.take 1 = ['0']) :
    d.take 3 ≠ ['9', '7', '1'] := by
  cases d with
  | nil => simp at h1
  | cons a t =>
    simp at h1
    subst h1
    intro hc
    simp at hc

theorem normPhoneDigits_local {d : List Char} (h1 : d.take 1 = ['0'])
    (h2 : d.length = 10) :
    normPhoneDigits d = some ('+' :: '9' :: '7' :: '1' :: d.drop 1) := by
  have hne : d ≠ [] := by
    intro hempty
    rw [hempty] at h2
    simp at h2
  simp [normPhoneDigits, phoneMainBranch, hne, take_one_ne_971 h1, h1, h2]

theorem normPhoneDigits_shape {d r : List Char} (hd : ∀ c ∈ d, c.isDigit)
    (h : normPhoneDigits d = some r) :
    ∃ e, r = '+' :: e ∧ e.length = 12 ∧ e.take 3 = ['9', '7', '1'] ∧ ∀ c ∈ e, c.isDigit := by
  by_cases hA : d.take 3 = ['9', '7', '1'] ∧ d.length = 12
  · rw [normPhoneDigits_971 hA.1 hA.2] at h
    injection h with he
    exact ⟨d, he.symm, hA.2, hA.1, hd⟩
  · by_cases hB : d.take 1 = ['0'] ∧ d.length = 10
    · rw [normPhoneDigits_local hB.1 hB.2] at h
      injection h with he
      refine ⟨'9' :: '7' :: '1' :: d.drop 1, he.symm, ?_, rfl, ?_⟩
      · simp
        omega
      · intro c hc
        simp at hc
        rcases hc with rfl | rfl | rfl | hc
        · decide
        · decide
        · decide
        · exact hd c (List.mem_of_mem_tail hc)
    · by_cases h9 : 9 ≤ d.length
      · rw [normPhoneDigits_salvage d h9 hA hB] at h
        injection h with he
        refine ⟨'9' :: '7' :: '1' :: last9 d, he.symm, ?_, rfl, ?_⟩
        · simp [last9]
          omega
        · intro c hc
          simp at hc
          rcases hc with rfl | rfl | rfl | hc
          · decide
          · decide
          · decide
          · exact hd c (List.mem_of_mem_drop hc)
      · rw [normPhoneDigits_short (by omega)] at h
        simp at h

/-- Claim C9: `normalize_phone` is idempotent on its own output — whenever it
returns a non-null key, re-normalizing that key returns the same key. -/
theorem c9_normalize_phone_idempotent (s k : String)
    (h : normalize_phone s = some k) : normalize_phone k = some k := by
  unfold normalize_phone at h
  obtain ⟨r, hr, hk⟩ := Option.map_eq_some'.mp h
  obtain ⟨e, hre, hlen, htake, hdig⟩ := normPhoneDigits_shape (digitsOf_all_digits s) hr
  subst hre
  subst hk
  have hdata : (String.mk ('+' :: e)).data = '+' :: e := rfl
  have hdk : digitsOf (String.mk ('+' :: e)) = e := by
    unfold digitsOf
    rw [hdata]
    rw [List.filter_cons]
    have hplus : ('+' : Char).isDigit = false := by decide
    rw [hplus]
    simp only [Bool.false_eq_true, if_false]
    exact List.filter_eq_self.mpr (fun c hc => hdig c hc)
  have hene : e ≠ [] := by
    intro hempty
    rw [hempty] at hlen
    simp at hlen
  unfold normalize_phone
  rw [hdk]
  unfold normPhoneDigits phoneMainBranch
  simp [hene, htake, hlen]

/-- Witness for C9: a normalized key re-normalizes to itself. -/
theorem c9_witness : normalize_phone "+971501234567" = some "+971501234567" :=
  c9_normalize_phone_idempotent "0501234567" "+971501234567" (by decide)

/-- Claim C7 (code-bug evidence): `normalize_name` removes a space plus a legal
suffix anywhere in the string, not only as a trailing suffix — `" CO"` inside
`"ACME COMPANY"` is removed, mangling the name to `"ACMEMPANY"` — and its one
`replace("  ", " ")` pass only halves runs of spaces instead of collapsing
them. -/
theorem c7_normalize_name_eval :
    normalize_name "ACME COMPANY" = "ACMEMPANY"
    ∧ normalize_name "SMART LLC SOLUTIONS" = "SMART SOLUTIONS"
    ∧ normalize_name "A   B" = "A  B" := by
  refine ⟨?_, ?_, ?_⟩ <;> decide

/-- Claim C8: for a non-empty input, when the exact cached lookup misses and
the persistent store lookup yields nothing (its failure modes all surface as
`none`, or an empty canonical string), `_resolve_alias` returns the original
input unchanged — never null, and it cannot raise. -/
theorem c8_resolve_alias_fallback (aliasMap : List (String × String))
    (dbResult : Option String) (userInput : String)
    (hne : userInput ≠ "")
    (hmiss : lookupStr aliasMap (String.mk ((pyStrip userInput.data).map Char.toLower)) = none)
    (hdb : dbResult = none ∨ dbResult = some "") :
    resolveAlias aliasMap dbResult userInput = userInput := by
  rcases hdb with h | h
  · subst h
    simp [resolveAlias, hne, hmiss]
  · subst h
    simp [resolveAlias, hne, hmiss]

/-- Witness for C8: an unregistered free-text community name resolves to
itself against the static seed table with the slow path failing. -/
theorem c8_witness :
    resolveAlias staticCommunityAliases none "Unknown Community" = "Unknown Community" :=
  c8_resolve_alias_fallback staticCommunityAliases none "Unknown Community"
    (by decide) (by decide) (Or.inl rfl)

/-! ### Analytics theorems -/

/-- Claim C1 (counterexample): a single transaction with price 0 survives the
initial emptiness check but is removed by the data-quality filters; the result
is the computed-fields dict (with NaN statistics), not the `error` sentinel
the claim requires for a record set that is empty after filtering. -/
theorem c1_counterexample :
    qualityFiltered [({ price := some 0, sizeSqft := some 2000, txDate := 0 } : Txn)] = []
    ∧ (market_stats [({ price := some 0, sizeSqft := some 2000, txDate := 0 } : Txn)]).isFail
        = false := by
  constructor
  · decide
  · decide

/-- Claim C1 (amended): `market_stats` is a total function that returns either
computed fields or the error sentinel, and returns the sentinel exactly when
the fetched record set is empty before the data-quality filters; when records
were fetched but the filters remove them all, it returns the computed-fields
dict with NaN (`none`) statistics, zero volume and zero count instead of the
sentinel. -/
theorem c1_market_stats_sentinel (ts : List Txn) :
    ((market_stats ts).isFail = true ↔ ts = [])
    ∧ (ts ≠ [] → qualityFiltered ts = [] →
        market_stats ts = .ok ⟨none, none, none, none, 0, 0, none, none⟩) := by
  constructor
  · constructor
    · intro h
      by_contra hne
      unfold market_stats at h
      rw [if_neg hne] at h
      simp [StatsResult.isFail] at h
    · intro h
      subst h
      simp [market_stats, StatsResult.isFail]
  · intro hne hf
    unfold market_stats
    rw [if_neg hne]
    simp only [hf]
    simp [meanQ, medianQ, quantileQ]

/-- Witness for C1 at the concrete all-filtered input. -/
theorem c1_witness :
    market_stats [({ price := some 0, sizeSqft := some 2000, txDate := 0 } : Txn)]
      = .ok ⟨none, none, none, none, 0, 0, none, none⟩ :=
  (c1_market_stats_sentinel _).2 (by decide) (by decide)

theorem foldlMax_spec (xs : List Int) :
    ∀ a : Int, (xs.foldl max a ∈ a :: xs) ∧ ∀ y ∈ a :: xs, y ≤ xs.foldl max a := by
  induction xs with
  | nil =>
    intro a
    simp
  | cons b bs ih =>
    intro a
    have hstep : (b :: bs).foldl max a = bs.foldl max (max a b) := by
      simp [List.foldl_cons]
    rw [hstep]
    obtain ⟨hmem, hub⟩ := ih (max a b)
    constructor
    · rcases List.mem_cons.mp hmem with hh | ht
      · rcases max_choice a b with hc | hc
        · rw [hh.trans hc]
          exact List.mem_cons_self _ _
        · rw [hh.trans hc]
          exact List.mem_cons_of_mem _ (List.mem_cons_self _ _)
      · exact List.mem_cons_of_mem _ (List.mem_cons_of_mem _ ht)
    · intro y hy
      have hmaxle : max a b ≤ bs.foldl max (max a b) := hub _ (List.mem_cons_self _ _)
      rcases List.mem_cons.mp hy with rfl | hy
      · exact le_trans (le_max_left _ _) hmaxle
      · rcases List.mem_cons.mp hy with rfl | hy
        · exact le_trans (le_max_right _ _) hmaxle
        · exact hub _ (List.mem_cons_of_mem _ hy)

theorem listMaxInt_spec (l : List Int) (h : l ≠ []) :
    listMaxInt l ∈ l ∧ ∀ x ∈ l, x ≤ listMaxInt l := by
  cases l with
  | nil => exact absurd rfl h
  | cons a xs => exact foldlMax_spec xs a

theorem transaction_velocity_count (ts : List Txn) (w : ℕ) (h : ts ≠ []) :
    transaction_velocity ts w
      = velocityPayload w (ts.countP
          (fun t => decide (listMaxInt (ts.map (fun t => t.txDate)) - (w : Int) ≤ t.txDate))) := by
  have hperm : (List.insertionSort (fun a b : Txn => a.txDate ≤ b.txDate) ts).Perm ts :=
    List.perm_insertionSort _ ts
  have hSne : List.insertionSort (fun a b : Txn => a.txDate ≤ b.txDate) ts ≠ [] := by
    intro h0
    apply h
    have := hperm.length_eq
    rw [h0] at this
    exact List.length_eq_zero.mp this.symm
  have hmapne : (List.insertionSort (fun a b : Txn => a.txDate ≤ b.txDate) ts).map
      (fun t => t.txDate) ≠ [] := by
    simpa using hSne
  have htsmapne : ts.map (fun t => t.txDate) ≠ [] := by
    simpa using h
  have hmapperm :
      ((List.insertionSort (fun a b : Txn => a.txDate ≤ b.txDate) ts).map
        (fun t => t.txDate)).Perm (ts.map (fun t => t.txDate)) := hperm.map _
  obtain ⟨hmem1, hub1⟩ := listMaxInt_spec _ hmapne
  obtain ⟨hmem2, hub2⟩ := listMaxInt_spec _ htsmapne
  have hm : listMaxInt ((List.insertionSort (fun a b : Txn => a.txDate ≤ b.txDate) ts).map
      (fun t => t.txDate)) = listMaxInt (ts.map (fun t => t.txDate)) := by
    have h12 := hub2 _ (hmapperm.mem_iff.mp hmem1)
    have h21 := hub1 _ (hmapperm.mem_iff.mpr hmem2)
    omega
  have hflen : ∀ p : Txn → Bool,
      ((List.insertionSort (fun a b : Txn => a.txDate ≤ b.txDate) ts).filter p).length
        = ts.countP p := by
    intro p
    rw [List.countP_eq_length_filter]
    exact (hperm.filter p).length_eq
  unfold transaction_velocity
  rw [if_neg h]
  simp only [hm, hflen, velocityPayload]

/-- Claim C10: for a non-empty record set, `transaction_velocity` counts the
transactions inside the trailing window that ends at the latest transaction
date present in the fetched data (cutoff = max date minus the window), not at
the current wall-clock time, and returns that count divided by the window
length. -/
theorem c10_velocity_window (ts : List Txn) (w : ℕ) (h : ts ≠ []) :
    ∃ m, m ∈ ts.map (fun t => t.txDate)
      ∧ (∀ t ∈ ts, t.txDate ≤ m)
      ∧ transaction_velocity ts w
          = velocityPayload w (ts.countP (fun t => decide (m - (w : Int) ≤ t.txDate))) := by
  have htsmapne : ts.map (fun t => t.txDate) ≠ [] := by
    simpa using h
  obtain ⟨hmem, hub⟩ := listMaxInt_spec _ htsmapne
  refine ⟨listMaxInt (ts.map (fun t => t.txDate)), hmem, ?_, ?_⟩
  · intro t ht
    exact hub _ (List.mem_map_of_mem _ ht)
  · exact transaction_velocity_count ts w h

/-- Witness for C10 on a concrete two-transaction history with a 90-day
window. -/
theorem c10_witness :
    ∃ m, m ∈ ([({ price := none, sizeSqft := none, txDate := 0 } : Txn),
               ({ price := none, sizeSqft := none, txDate := 100 } : Txn)]).map
                 (fun t => t.txDate)
      ∧ (∀ t ∈ [({ price := none, sizeSqft := none, txDate := 0 } : Txn),
                ({ price := none, sizeSqft := none, txDate := 100 } : Txn)], t.txDate ≤ m)
      ∧ transaction_velocity
          [({ price := none, sizeSqft := none, txDate := 0 } : Txn),
           ({ price := none, sizeSqft := none, txDate := 100 } : Txn)] 90
          = velocityPayload 90
              (([({ price := none, sizeSqft := none, txDate := 0 } : Txn),
                 ({ price := none, sizeSqft := none, txDate := 100 } : Txn)]).countP
                (fun t => decide (m - (90 : Int) ≤ t.txDate))) :=
  c10_velocity_window _ 90 (by decide)

/-! ### Clustering lemmas -/

theorem lookupNat_upsert_self (m : List (String × ℕ)) (k : String) (v : ℕ) :
    lookupNat (upsertNat m k v) k = some v := by
  induction m with
  | nil => simp [upsertNat, lookupNat]
  | cons e rest ih =>
    by_cases h : e.1 = k
    · simp [upsertNat, lookupNat, h]
    · simp [upsertNat, lookupNat, h, ih]

theorem lookupNat_upsert_other (m : List (String × ℕ)) (k : String) (v : ℕ)
    (q : String) (hq : q ≠ k) : lookupNat (upsertNat m k v) q = lookupNat m q := by
  induction m with
  | nil =>
    have hkq : ¬ k = q := fun hc => hq hc.symm
    simp [upsertNat, lookupNat, hkq]
  | cons e rest ih =>
    by_cases h : e.1 = k
    · have hkq : ¬ k = q := fun hc => hq hc.symm
      simp [upsertNat, lookupNat, h, hkq]
    · by_cases h2 : e.1 = q
      · simp [upsertNat, lookupNat, h, h2, hq]
      · simp [upsertNat, lookupNat, h, h2, ih]

theorem lookupNat_mem {m : List (String × ℕ)} {k : String} {v : ℕ}
    (h : lookupNat m k = some v) : (k, v) ∈ m := by
  induction m with
  | nil => simp [lookupNat] at h
  | cons e rest ih =>
    by_cases he : e.1 = k
    · rw [lookupNat, if_pos he] at h
      injection h with h
      have he2 : e = (k, v) := by
        cases e
        simp_all
      rw [← he2]
      exact List.mem_cons_self _ _
    · rw [lookupNat, if_neg he] at h
      exact List.mem_cons_of_mem _ (ih h)

theorem upsertNat_mem {m : List (String × ℕ)} {k : String} {v : ℕ} {e : String × ℕ}
    (h : e ∈ upsertNat m k v) : e.2 = v ∨ e ∈ m := by
  induction m with
  | nil =>
    simp [upsertNat] at h
    left
    rw [h]
  | cons f rest ih =>
    by_cases hf : f.1 = k
    · rw [upsertNat, if_pos hf] at h
      rcases List.mem_cons.mp h with rfl | hm
      · left
        rfl
      · right
        exact List.mem_cons_of_mem _ hm
    · rw [upsertNat, if_neg hf] at h
      rcases List.mem_cons.mp h with rfl | hm
      · right
        exact List.mem_cons_self _ _
      · rcases ih hm with hv | hm2
        · left
          exact hv
        · right
          exact List.mem_cons_of_mem _ hm2

theorem nameSearch_mem {entries : List (String × ℕ)} {nn : String} {c : ℕ}
    (h : nameSearch entries nn = some c) : ∃ e ∈ entries, e.2 = c := by
  induction entries with
  | nil => simp [nameSearch] at h
  | cons e rest ih =>
    by_cases hs : (90 : ℚ) ≤ fuzzScore nn e.1
    · rw [nameSearch, if_pos hs] at h
      injection h with h
      exact ⟨e, List.mem_cons_self _ _, h⟩
    · rw [nameSearch, if_neg hs] at h
      obtain ⟨f, hf, hfc⟩ := ih h
      exact ⟨f, List.mem_cons_of_mem _ hf, hfc⟩

theorem runClusterAux_cons (s : CState) (o : Identity) (rest : List Identity) :
    runClusterAux s (o :: rest)
      = ((runClusterAux (stepA s o).1 rest).1,
         (stepA s o).2 :: (runClusterAux (stepA s o).1 rest).2) := by
  simp [runClusterAux]

theorem stepA_phone_strategy1 (s : CState) (o : Identity) (c : ℕ)
    (hnp : normalizePhoneLocal o.rawPhone ≠ "")
    (hl : lookupNat s.phoneTo (normalizePhoneLocal o.rawPhone) = some c) :
    (stepA s o).2 = c := by
  unfold stepA stepFound
  simp [hnp, hl]

theorem stepA_phoneTo_after (s : CState) (o : Identity) :
    (stepA s o).1.phoneTo
      = if normalizePhoneLocal o.rawPhone = "" then s.phoneTo
        else upsertNat s.phoneTo (normalizePhoneLocal o.rawPhone) (stepA s o).2 := by
  unfold stepA
  cases hf : stepFound s o <;> simp [hf]

theorem stepA_phone_mono (s : CState) (o : Identity) (p : String) (c : ℕ)
    (hp : lookupNat s.phoneTo p = some c) :
    lookupNat (stepA s o).1.phoneTo p = some c := by
  rw [stepA_phoneTo_after]
  by_cases hnp : normalizePhoneLocal o.rawPhone = ""
  · simp [hnp, hp]
  · rw [if_neg hnp]
    by_cases hpe : p = normalizePhoneLocal o.rawPhone
    · subst hpe
      rw [lookupNat_upsert_self, stepA_phone_strategy1 s o c hnp hp]
    · rw [lookupNat_upsert_other _ _ _ _ hpe]
      exact hp

theorem stepA_phone_set (s : CState) (o : Identity)
    (hnp : normalizePhoneLocal o.rawPhone ≠ "") :
    lookupNat (stepA s o).1.phoneTo (normalizePhoneLocal o.rawPhone)
      = some (stepA s o).2 := by
  rw [stepA_phoneTo_after, if_neg hnp, lookupNat_upsert_self]

theorem runClusterAux_assign_of_lookup (os : List Identity) :
    ∀ (s : CState) (p : String) (c : ℕ), p ≠ "" →
      lookupNat s.phoneTo p = some c →
      ∀ k, k < os.length →
        normalizePhoneLocal ((os.getD k ⟨"", ""⟩).rawPhone) = p →
        (runClusterAux s os).2.getD k 0 = c := by
  induction os with
  | nil =>
    intro s p c hp hl k hk
    simp at hk
  | cons o rest ih =>
    intro s p c hp hl k hk hkp
    rw [runClusterAux_cons]
    cases k with
    | zero =>
      simp only [List.getD_cons_zero] at hkp ⊢
      rw [stepA_phone_strategy1 s o c (hkp ▸ hp) (hkp ▸ hl)]
    | succ m =>
      simp only [List.getD_cons_succ] at hkp ⊢
      exact ih (stepA s o).1 p c hp (stepA_phone_mono s o p c hl) m
        (by simpa using hk) hkp

theorem runClusterAux_phone_pair (os : List Identity) :
    ∀ (s : CState) (i j : ℕ), i < j → j < os.length →
      normalizePhoneLocal ((os.getD i ⟨"", ""⟩).rawPhone)
        = normalizePhoneLocal ((os.getD j ⟨"", ""⟩).rawPhone) →
      normalizePhoneLocal ((os.getD i ⟨"", ""⟩).rawPhone) ≠ "" →
      (runClusterAux s os).2.getD i 0 = (runClusterAux s os).2.getD j 0 := by
  induction os with
  | nil =>
    intro s i j hij hj
    simp at hj
  | cons o rest ih =>
    intro s i j hij hj hpeq hpne
    rw [runClusterAux_cons]
    cases i with
    | zero =>
      cases j with
      | zero => omega
      | succ m =>
        simp only [List.getD_cons_zero, List.getD_cons_succ] at hpeq hpne ⊢
        have hset := stepA_phone_set s o hpne
        exact (runClusterAux_assign_of_lookup rest (stepA s o).1
          (normalizePhoneLocal o.rawPhone) (stepA s o).2 hpne hset m
          (by simpa using hj) hpeq.symm).symm
    | succ m =>
      cases j with
      | zero => omega
      | succ m2 =>
        simp only [List.getD_cons_succ] at hpeq hpne ⊢
        exact ih (stepA s o).1 m m2 (by omega) (by simpa using hj) hpeq hpne

/-- Claim C3: any two identities in one clustering run whose normalized phones
are equal and non-empty receive the same `cluster_id`, regardless of their
names. -/
theorem c3_phone_precedence (os : List Identity) (i j : ℕ)
    (hi : i < os.length) (hj : j < os.length)
    (hp : normalizePhoneLocal ((os.getD i ⟨"", ""⟩).rawPhone)
        = normalizePhoneLocal ((os.getD j ⟨"", ""⟩).rawPhone))
    (hne : normalizePhoneLocal ((os.getD i ⟨"", ""⟩).rawPhone) ≠ "") :
    (clusterAssign os).getD i 0 = (clusterAssign os).getD j 0 := by
  unfold clusterAssign
  rcases lt_trichotomy i j with hlt | heq | hgt
  · exact runClusterAux_phone_pair os initCState i j hlt hj hp hne
  · rw [heq]
  · exact (runClusterAux_phone_pair os initCState j i hgt hi hp.symm
      (hp ▸ hne)).symm

/-- Witness for C3: two identities with dissimilar names but the same
non-empty phone land in the same cluster. -/
theorem c3_witness :
    (clusterAssign [⟨"ALPHA HOLDINGS", "0501112222"⟩, ⟨"ZQX", "0501112222"⟩]).getD 0 0
      = (clusterAssign [⟨"ALPHA HOLDINGS", "0501112222"⟩, ⟨"ZQX", "0501112222"⟩]).getD 1 0 :=
  c3_phone_precedence _ 0 1 (by decide) (by decide) (by decide) (by decide)

theorem addMember_cons (p : ℕ × List Identity) (rest : List (ℕ × List Identity))
    (cid : ℕ) (o : Identity) :
    addMember (p :: rest) cid o
      = (if p.1 = cid then (p.1, p.2 ++ [o]) else p) :: addMember rest cid o := rfl

theorem clusterKeys_addMember (cs : List (ℕ × List Identity)) (cid : ℕ) (o : Identity) :
    clusterKeys (addMember cs cid o) = clusterKeys cs := by
  induction cs with
  | nil => rfl
  | cons p rest ih =>
    rw [addMember_cons]
    by_cases h : p.1 = cid
    · simp only [if_pos h, clusterKeys, List.map_cons]
      rw [show ((p.1, p.2 ++ [o]) : ℕ × List Identity).1 = p.1 from rfl]
      exact congrArg (p.1 :: ·) ih
    · simp only [if_neg h, clusterKeys, List.map_cons]
      exact congrArg (p.1 :: ·) ih

theorem clusterKeys_append (a b : List (ℕ × List Identity)) :
    clusterKeys (a ++ b) = clusterKeys a ++ clusterKeys b := by
  simp [clusterKeys]

theorem addMember_not_mem (cs : List (ℕ × List Identity)) (cid : ℕ) (o : Identity)
    (h : cid ∉ clusterKeys cs) : addMember cs cid o = cs := by
  induction cs with
  | nil => rfl
  | cons p rest ih =>
    simp only [clusterKeys, List.map_cons, List.mem_cons, not_or] at h
    rw [addMember_cons, if_neg (fun hc => h.1 hc.symm)]
    exact congrArg (p :: ·) (ih (by simpa [clusterKeys] using h.2))

theorem membersJoin_cons (p : ℕ × List Identity) (rest : List (ℕ × List Identity)) :
    membersJoin (p :: rest) = p.2 ++ membersJoin rest := by
  simp [membersJoin]

theorem membersJoin_append (a b : List (ℕ × List Identity)) :
    membersJoin (a ++ b) = membersJoin a ++ membersJoin b := by
  simp [membersJoin]

theorem membersJoin_addMember_perm (cs : List (ℕ × List Identity)) (cid : ℕ)
    (o : Identity) (hmem : cid ∈ clusterKeys cs) (hnd : (clusterKeys cs).Nodup) :
    List.Perm (membersJoin (addMember cs cid o)) (o :: membersJoin cs) := by
  induction cs with
  | nil => simp [clusterKeys] at hmem
  | cons p rest ih =>
    have hkeys : clusterKeys (p :: rest) = p.1 :: clusterKeys rest := rfl
    rw [hkeys] at hmem hnd
    by_cases h : p.1 = cid
    · have hnotin : cid ∉ clusterKeys rest := by
        rw [← h]
        exact (List.nodup_cons.mp hnd).1
      rw [addMember_cons, if_pos h, addMember_not_mem rest cid o hnotin,
        membersJoin_cons, membersJoin_cons, List.append_assoc]
      exact List.perm_middle
    · have hmem2 : cid ∈ clusterKeys rest := by
        rcases List.mem_cons.mp hmem with hc | hc
        · exact absurd hc.symm h
        · exact hc
      have hnd2 : (clusterKeys rest).Nodup := (List.nodup_cons.mp hnd).2
      rw [addMember_cons, if_neg h, membersJoin_cons, membersJoin_cons]
      exact ((ih hmem2 hnd2).append_left p.2).trans List.perm_middle

theorem ensureKey_of_mem (cs : List (ℕ × List Identity)) (cid : ℕ)
    (h : cid ∈ clusterKeys cs) : ensureKey cs cid = cs := by
  simp [ensureKey, h]

theorem stepFound_mem {s : CState} {o : Identity} {c : ℕ}
    (h : stepFound s o = some c) (hinv : CInv s) : c ∈ clusterKeys s.clusters := by
  unfold stepFound at h
  cases hph : (if normalizePhoneLocal o.rawPhone = "" then none
      else lookupNat s.phoneTo (normalizePhoneLocal o.rawPhone)) with
  | some c0 =>
    simp only [hph] at h
    injection h with h
    subst h
    by_cases hnp : normalizePhoneLocal o.rawPhone = ""
    · rw [if_pos hnp] at hph
      exact absurd hph (by simp)
    · rw [if_neg hnp] at hph
      exact hinv.2.1 _ (lookupNat_mem hph)
  | none =>
    simp only [hph] at h
    by_cases hnn : normalize_name o.rawName = ""
    · rw [if_pos hnn] at h
      exact absurd h (by simp)
    · rw [if_neg hnn] at h
      obtain ⟨e, he, hec⟩ := nameSearch_mem h
      exact hec ▸ hinv.2.2.1 _ he

theorem stepA_found_eq (s : CState) (o : Identity) (c : ℕ)
    (h : stepFound s o = some c) :
    (stepA s o).1.clusters = addMember (ensureKey s.clusters c) c o
    ∧ (stepA s o).2 = c
    ∧ (stepA s o).1.next = s.next
    ∧ (∀ e ∈ (stepA s o).1.phoneTo, e.2 = c ∨ e ∈ s.phoneTo)
    ∧ (∀ e ∈ (stepA s o).1.nameTo, e.2 = c ∨ e ∈ s.nameTo) := by
  unfold stepA
  rw [h]
  refine ⟨rfl, rfl, rfl, ?_, ?_⟩
  · intro e he
    simp only at he
    by_cases hnp : normalizePhoneLocal o.rawPhone = ""
    · rw [if_pos hnp] at he
      exact Or.inr he
    · rw [if_neg hnp] at he
      exact upsertNat_mem he
  · intro e he
    simp only at he
    by_cases hnn : normalize_name o.rawName = ""
    · rw [if_pos hnn] at he
      exact Or.inr he
    · rw [if_neg hnn] at he
      exact upsertNat_mem he

theorem stepA_fresh_eq (s : CState) (o : Identity)
    (h : stepFound s o = none) :
    (stepA s o).1.clusters = addMember (s.clusters ++ [(s.next, [])]) s.next o
    ∧ (stepA s o).2 = s.next
    ∧ (stepA s o).1.next = s.next + 1
    ∧ (∀ e ∈ (stepA s o).1.phoneTo, e.2 = s.next ∨ e ∈ s.phoneTo)
    ∧ (∀ e ∈ (stepA s o).1.nameTo, e.2 = s.next ∨ e ∈ s.nameTo) := by
  unfold stepA
  rw [h]
  refine ⟨rfl, rfl, rfl, ?_, ?_⟩
  · intro e he
    simp only at he
    by_cases hnp : normalizePhoneLocal o.rawPhone = ""
    · rw [if_pos hnp] at he
      exact Or.inr he
    · rw [if_neg hnp] at he
      exact upsertNat_mem he
  · intro e he
    simp only at he
    by_cases hnn : normalize_name o.rawName = ""
    · rw [if_pos hnn] at he
      exact Or.inr he
    · rw [if_neg hnn] at he
      exact upsertNat_mem he

theorem stepA_inv (s : CState) (o : Identity) (hinv : CInv s) : CInv (stepA s o).1 := by
  cases hf : stepFound s o with
  | some c =>
    obtain ⟨hcl, _, hnx, hph, hnm⟩ := stepA_found_eq s o c hf
    have hc := stepFound_mem hf hinv
    have hkeys : clusterKeys (stepA s o).1.clusters = clusterKeys s.clusters := by
      rw [hcl, clusterKeys_addMember, ensureKey_of_mem _ _ hc]
    refine ⟨hkeys ▸ hinv.1, ?_, ?_, ?_⟩
    · intro e he
      rw [hkeys]
      rcases hph e he with hv | hold
      · exact hv ▸ hc
      · exact hinv.2.1 _ hold
    · intro e he
      rw [hkeys]
      rcases hnm e he with hv | hold
      · exact hv ▸ hc
      · exact hinv.2.2.1 _ hold
    · intro k hk
      rw [hkeys] at hk
      rw [hnx]
      exact hinv.2.2.2 _ hk
  | none =>
    obtain ⟨hcl, _, hnx, hph, hnm⟩ := stepA_fresh_eq s o hf
    have hnotin : s.next ∉ clusterKeys s.clusters :=
      fun hm => lt_irrefl _ (hinv.2.2.2 _ hm)
    have hkeys : clusterKeys (stepA s o).1.clusters
        = clusterKeys s.clusters ++ [s.next] := by
      rw [hcl, clusterKeys_addMember, clusterKeys_append]
      rfl
    refine ⟨?_, ?_, ?_, ?_⟩
    · rw [hkeys]
      rw [List.nodup_append]
      exact ⟨hinv.1, List.nodup_singleton _, by simpa using hnotin⟩
    · intro e he
      rw [hkeys]
      rcases hph e he with hv | hold
      · exact hv ▸ List.mem_append_right _ (List.mem_singleton_self _)
      · exact List.mem_append_left _ (hinv.2.1 _ hold)
    · intro e he
      rw [hkeys]
      rcases hnm e he with hv | hold
      · exact hv ▸ List.mem_append_right _ (List.mem_singleton_self _)
      · exact List.mem_append_left _ (hinv.2.2.1 _ hold)
    · intro k hk
      rw [hkeys] at hk
      rw [hnx]
      rcases List.mem_append.mp hk with hk | hk
      · exact lt_trans (hinv.2.2.2 _ hk) (Nat.lt_succ_self _)
      · rw [List.mem_singleton.mp hk]
        exact Nat.lt_succ_self _

theorem stepA_members_perm (s : CState) (o : Identity) (hinv : CInv s) :
    List.Perm (membersJoin (stepA s o).1.clusters) (o :: membersJoin s.clusters) := by
  cases hf : stepFound s o with
  | some c =>
    obtain ⟨hcl, _, _⟩ := stepA_found_eq s o c hf
    have hc := stepFound_mem hf hinv
    rw [hcl, ensureKey_of_mem _ _ hc]
    exact membersJoin_addMember_perm _ _ _ hc hinv.1
  | none =>
    obtain ⟨hcl, _, _⟩ := stepA_fresh_eq s o hf
    have hnotin : s.next ∉ clusterKeys s.clusters :=
      fun hm => lt_irrefl _ (hinv.2.2.2 _ hm)
    have hsplit : addMember (s.clusters ++ [(s.next, [])]) s.next o
        = s.clusters ++ [(s.next, [o])] := by
      unfold addMember
      rw [List.map_append]
      have h1 : s.clusters.map
          (fun p => if p.1 = s.next then (p.1, p.2 ++ [o]) else p) = s.clusters :=
        addMember_not_mem s.clusters s.next o hnotin
      rw [h1]
      simp
    rw [hcl, hsplit, membersJoin_append]
    have hj : membersJoin [(s.next, [o])] = [o] := by
      simp [membersJoin]
    rw [hj]
    exact List.perm_append_singleton o (membersJoin s.clusters)

theorem initCState_inv : CInv initCState := by
  refine ⟨?_, ?_, ?_, ?_⟩ <;> simp [initCState, clusterKeys]

theorem runClusterAux_members_perm (os : List Identity) :
    ∀ s : CState, CInv s →
      List.Perm (membersJoin (runClusterAux s os).1.clusters)
        (os ++ membersJoin s.clusters) := by
  induction os with
  | nil =>
    intro s _
    simp [runClusterAux]
  | cons o rest ih =>
    intro s hinv
    rw [runClusterAux_cons]
    have h1 := ih (stepA s o).1 (stepA_inv s o hinv)
    have h2 := (stepA_members_perm s o hinv).append_left rest
    rw [List.cons_append]
    exact (h1.trans h2).trans List.perm_middle

theorem filter_pos_length (ns : List ℕ) (h : ns.sum = 1) :
    (ns.filter (fun n => decide (0 < n))).length = 1 := by
  induction ns with
  | nil => simp at h
  | cons n rest ih =>
    rw [List.sum_cons] at h
    cases n with
    | zero =>
      simp only [List.filter_cons]
      rw [if_neg (by simp)]
      exact ih (by omega)
    | succ m =>
      have hm : m = 0 := by omega
      have hrest : rest.sum = 0 := by omega
      have hall : ∀ x ∈ rest, x = 0 := List.sum_eq_zero_iff.mp hrest
      have hfil : rest.filter (fun n => decide (0 < n)) = [] := by
        rw [List.filter_eq_nil_iff]
        intro a ha
        simp [hall a ha]
      simp only [List.filter_cons]
      rw [if_pos (by simp)]
      simp [hfil]

theorem filter_mem_count_length (cs : List (ℕ × List Identity)) (o : Identity) :
    (cs.filter (fun p => decide (o ∈ p.2))).length
      = ((cs.map (fun p => p.2.count o)).filter (fun n => decide (0 < n))).length := by
  induction cs with
  | nil => rfl
  | cons p rest ih =>
    by_cases h : o ∈ p.2
    · have hc : 0 < p.2.count o := List.count_pos_iff.mpr h
      simp only [List.filter_cons, List.map_cons]
      rw [if_pos (by simpa using h), if_pos (by simpa using hc)]
      simp [ih]
    · have hc : ¬ 0 < p.2.count o := by
        rw [List.count_eq_zero.mpr h]
        omega
      simp only [List.filter_cons, List.map_cons]
      rw [if_neg (by simpa using h), if_neg (by simpa using hc)]
      exact ih

/-- Claim C2: one run of `cluster_owners` partitions its input — the multiset
union of all cluster member lists is exactly the input identity list, and
for a duplicate-free input every identity lies in exactly one cluster's member
list. -/
theorem c2_partition_invariant (os : List Identity) :
    ((membersJoin (cluster_owners os) : List Identity) : Multiset Identity)
        = (os : Multiset Identity)
    ∧ (os.Nodup → ∀ o ∈ os,
        ((cluster_owners os).filter (fun p => decide (o ∈ p.2))).length = 1) := by
  have hperm : List.Perm (membersJoin (cluster_owners os)) os := by
    have h := runClusterAux_members_perm os initCState initCState_inv
    have hinit : membersJoin (initCState.clusters) = [] := rfl
    rw [hinit, List.append_nil] at h
    exact h
  constructor
  · exact Multiset.coe_eq_coe.mpr hperm
  · intro hnd o ho
    have hcount : (membersJoin (cluster_owners os)).count o = 1 := by
      rw [hperm.count_eq]
      exact List.count_eq_one_of_mem hnd ho
    have hflat : (membersJoin (cluster_owners os)).count o
        = ((cluster_owners os).map (fun p => p.2.count o)).sum := by
      unfold membersJoin
      rw [List.count_flatten]
      rw [List.map_map]
      rfl
    rw [filter_mem_count_length]
    exact filter_pos_length _ (by rw [← hflat, hcount])

/-- Witness for C2: in a concrete two-identity run, the first identity lies in
exactly one cluster. -/
theorem c2_witness :
    ((cluster_owners [⟨"ALICE", "1"⟩, ⟨"BOB", "2"⟩]).filter
      (fun p => decide ((⟨"ALICE", "1"⟩ : Identity) ∈ p.2))).length = 1 :=
  (c2_partition_invariant [⟨"ALICE", "1"⟩, ⟨"BOB", "2"⟩]).2 (by decide) _ (by decide)

theorem nameSearch_at (entries : List (String × ℕ)) (nn : String) :
    ∀ idx, idx < entries.length →
      (∀ m, m < idx → fuzzScore nn ((entries.getD m ("", 0)).1) < 90) →
      (90 : ℚ) ≤ fuzzScore nn ((entries.getD idx ("", 0)).1) →
      nameSearch entries nn = some ((entries.getD idx ("", 0)).2) := by
  induction entries with
  | nil =>
    intro idx h
    simp at h
  | cons e rest ih =>
    intro idx hlen hbefore hat
    cases idx with
    | zero =>
      simp only [List.getD_cons_zero] at hat ⊢
      rw [nameSearch, if_pos hat]
    | succ m =>
      have h0 : fuzzScore nn e.1 < 90 := by
        have := hbefore 0 (Nat.succ_pos m)
        simpa using this
      simp only [List.getD_cons_succ] at hat ⊢
      rw [nameSearch, if_neg (not_le.mpr h0)]
      exact ih m (by simpa using hlen)
        (fun m2 hm2 => by
          have := hbefore (m2 + 1) (by omega)
          simpa using this) hat

theorem nameSearch_none (entries : List (String × ℕ)) (nn : String)
    (h : ∀ e ∈ entries, fuzzScore nn e.1 ≤ 89) : nameSearch entries nn = none := by
  induction entries with
  | nil => rfl
  | cons e rest ih =>
    have h0 : fuzzScore nn e.1 < 90 :=
      lt_of_le_of_lt (h e (List.mem_cons_self _ _)) (by norm_num)
    rw [nameSearch, if_neg (not_le.mpr h0)]
    exact ih (fun f hf => h f (List.mem_cons_of_mem _ hf))

theorem stepFound_no_phone (s : CState) (o : Identity)
    (hph : normalizePhoneLocal o.rawPhone = ""
      ∨ lookupNat s.phoneTo (normalizePhoneLocal o.rawPhone) = none)
    (hnn : normalize_name o.rawName ≠ "") :
    stepFound s o = nameSearch s.nameTo (normalize_name o.rawName) := by
  unfold stepFound
  rcases hph with h | h
  · simp [h, hnn]
  · by_cases hnp : normalizePhoneLocal o.rawPhone = ""
    · simp [hnp, hnn]
    · simp [hnp, h, hnn]

/-- Claim C5: in one clustering step with no usable phone match and a
non-empty normalized name, the identity joins the cluster of the first
previously-seen name (in insertion order) whose similarity reaches the
threshold 90 — including similarity exactly 90 — and when every previously
seen name scores 89 or below it joins no existing cluster: it is assigned the
fresh cluster id, which is not a key of the current clusters dict. -/
theorem c5_fuzzy_threshold (s : CState) (o : Identity)
    (hph : normalizePhoneLocal o.rawPhone = ""
      ∨ lookupNat s.phoneTo (normalizePhoneLocal o.rawPhone) = none)
    (hnn : normalize_name o.rawName ≠ "") :
    (∀ idx, idx < s.nameTo.length →
      (∀ m, m < idx →
        fuzzScore (normalize_name o.rawName) ((s.nameTo.getD m ("", 0)).1) < 90) →
      (90 : ℚ) ≤ fuzzScore (normalize_name o.rawName) ((s.nameTo.getD idx ("", 0)).1) →
      (stepA s o).2 = (s.nameTo.getD idx ("", 0)).2)
    ∧ ((∀ e ∈ s.nameTo, fuzzScore (normalize_name o.rawName) e.1 ≤ 89) →
        (stepA s o).2 = s.next
        ∧ ((∀ k ∈ clusterKeys s.clusters, k < s.next) →
            (stepA s o).2 ∉ clusterKeys s.clusters)) := by
  constructor
  · intro idx hlen hbefore hat
    have hfound : stepFound s o = some ((s.nameTo.getD idx ("", 0)).2) := by
      rw [stepFound_no_phone s o hph hnn]
      exact nameSearch_at s.nameTo _ idx hlen hbefore hat
    exact (stepA_found_eq s o _ hfound).2.1
  · intro hall
    have hfound : stepFound s o = none := by
      rw [stepFound_no_phone s o hph hnn]
      exact nameSearch_none s.nameTo _ hall
    have hassign := (stepA_fresh_eq s o hfound).2.1
    refine ⟨hassign, ?_⟩
    intro hbound hmem
    rw [hassign] at hmem
    exact lt_irrefl _ (hbound _ hmem)

/-- Witness for C5: with previously seen names scoring 10 and exactly 90
against the incoming name, the identity joins the cluster of the first name
reaching the threshold (the second entry, cluster 1). -/
theorem c5_witness :
    (stepA ⟨[(0, []), (1, [])], [], [("AAAAAAAAAA", 0), ("ABCDEFGHIJ", 1)], 2⟩
      ⟨"ABCDEFGHIK", ""⟩).2 = 1 := by
  exact (c5_fuzzy_threshold
      ⟨[(0, []), (1, [])], [], [("AAAAAAAAAA", 0), ("ABCDEFGHIJ", 1)], 2⟩
      ⟨"ABCDEFGHIK", ""⟩ (Or.inl (by decide)) (by decide)).1 1 (by decide)
    (fun m hm => by
      have hm0 : m = 0 := by omega
      subst hm0
      decide)
    (by decide)

/-! ### Property rebuild theorems -/

theorem laterRank_irrefl (a : RawTx) : laterRank a a = false := by
  unfold laterRank
  cases a.txDate with
  | none => simp
  | some x => simp

theorem laterRank_trans {a b c : RawTx} (h1 : laterRank a b = true)
    (h2 : laterRank b c = true) : laterRank a c = true := by
  unfold laterRank at *
  cases ha : a.txDate <;> cases hb : b.txDate <;> cases hc : c.txDate <;>
      simp_all <;>
    first
      | omega
      | (split_ifs at * <;> (try simp_all) <;> omega)

theorem laterRank_neg_trans {a b c : RawTx} (h1 : laterRank a b = false)
    (h2 : laterRank b c = false) : laterRank a c = false := by
  unfold laterRank at *
  cases ha : a.txDate <;> cases hb : b.txDate <;> cases hc : c.txDate <;>
      simp_all <;>
    first
      | omega
      | (split_ifs at * <;> (try simp_all) <;> omega)

theorem foldl_pick_spec (l : List RawTx) :
    ∀ a : RawTx,
      (l.foldl (fun best c => if laterRank c best then c else best) a ∈ a :: l)
      ∧ ∀ y ∈ a :: l,
          laterRank y (l.foldl (fun best c => if laterRank c best then c else best) a)
            = false := by
  induction l with
  | nil =>
    intro a
    constructor
    · simp
    · intro y hy
      rw [List.mem_singleton.mp hy]
      exact laterRank_irrefl a
  | cons b bs ih =>
    intro a
    rw [List.foldl_cons]
    by_cases hba : laterRank b a = true
    · rw [if_pos hba]
      obtain ⟨hm, hb⟩ := ih b
      constructor
      · rcases List.mem_cons.mp hm with hh | ht
        · rw [hh]
          exact List.mem_cons_of_mem _ (List.mem_cons_self _ _)
        · exact List.mem_cons_of_mem _ (List.mem_cons_of_mem _ ht)
      · intro y hy
        rcases List.mem_cons.mp hy with rfl | hy2
        · by_contra hcon
          have hya : laterRank y
              (bs.foldl (fun best c => if laterRank c best then c else best) b) = true := by
            simpa using hcon
          exact absurd (laterRank_trans hba hya)
            (by simp [hb b (List.mem_cons_self b bs)])
        · exact hb _ hy2
    · rw [if_neg hba]
      have hbf : laterRank b a = false := by
        simpa using hba
      obtain ⟨hm, hb⟩ := ih a
      constructor
      · rcases List.mem_cons.mp hm with hh | ht
        · rw [hh]
          exact List.mem_cons_self _ _
        · exact List.mem_cons_of_mem _ (List.mem_cons_of_mem _ ht)
      · intro y hy
        rcases List.mem_cons.mp hy with rfl | hy2
        · exact hb _ (List.mem_cons_self _ _)
        · rcases List.mem_cons.mp hy2 with rfl | hy3
          · exact laterRank_neg_trans hbf (hb _ (List.mem_cons_self _ _))
          · exact hb _ (List.mem_cons_of_mem _ hy3)

theorem pickFirstRanked_spec {g : List RawTx} {m : RawTx}
    (h : pickFirstRanked g = some m) :
    m ∈ g ∧ ∀ u ∈ g, laterRank u m = false := by
  cases g with
  | nil => simp [pickFirstRanked] at h
  | cons t rest =>
    simp only [pickFirstRanked] at h
    injection h with h
    obtain ⟨hm, hb⟩ := foldl_pick_spec rest t
    rw [h] at hm hb
    exact ⟨hm, hb⟩

theorem buildFor_some (elig : List RawTx) (owners : List OwnerRow)
    (k : Option String × Option String × Option String)
    (h : ∃ t ∈ elig, txKey t = k) :
    ∃ r, buildFor elig owners k = some r ∧ rowKey r = k := by
  obtain ⟨t, ht, hk⟩ := h
  have hmem : t ∈ elig.filter (fun u => decide (txKey u = k)) :=
    List.mem_filter.mpr ⟨ht, by simp [hk]⟩
  cases hg : elig.filter (fun u => decide (txKey u = k)) with
  | nil =>
    rw [hg] at hmem
    simp at hmem
  | cons t0 rest =>
    have hpick : ∃ m, pickFirstRanked (t0 :: rest) = some m := ⟨_, rfl⟩
    obtain ⟨m, hm⟩ := hpick
    refine ⟨mkPropRow owners m, ?_, ?_⟩
    · unfold buildFor
      rw [hg, hm]
      rfl
    · have hmg : m ∈ t0 :: rest := (pickFirstRanked_spec hm).1
      have hmk : txKey m = k := by
        have : m ∈ elig.filter (fun u => decide (txKey u = k)) := hg ▸ hmg
        have := (List.mem_filter.mp this).2
        simpa using this
      exact hmk

theorem count_keyed_rows (f : Option String × Option String × Option String → Option PropRow) :
    ∀ ks : List (Option String × Option String × Option String),
      (∀ x ∈ ks, ∃ r, f x = some r ∧ rowKey r = x) → ks.Nodup →
      ∀ k, ((ks.filterMap f).filter (fun r => decide (rowKey r = k))).length
        = if k ∈ ks then 1 else 0 := by
  intro ks
  induction ks with
  | nil =>
    intro _ _ k
    simp
  | cons x rest ih =>
    intro hf hnd k
    obtain ⟨r, hr, hrk⟩ := hf x (List.mem_cons_self _ _)
    rw [List.filterMap_cons, hr]
    rw [List.filter_cons]
    have hrest := ih (fun y hy => hf y (List.mem_cons_of_mem _ hy))
      (List.nodup_cons.mp hnd).2
    by_cases hx : x = k
    · subst hx
      rw [if_pos (by simp [hrk])]
      have hnotin : x ∉ rest := (List.nodup_cons.mp hnd).1
      rw [List.length_cons, hrest x, if_neg hnotin]
      simp
    · rw [if_neg (by simp [hrk, hx]), hrest k]
      have hkx : ¬ k = x := fun hc => hx hc.symm
      by_cases hkr : k ∈ rest
      · rw [if_pos hkr, if_pos (List.mem_cons_of_mem _ hkr)]
      · rw [if_neg hkr,
          if_neg (fun hc => (List.mem_cons.mp hc).elim hkx hkr)]

/-- Claim C4 (counterexample): two transactions sharing `(building, unit)` but
with different communities produce two staged property rows, because the SQL
partitions by `(community, building, unit)` — not by `(building, unit)` as the
claim states. -/
theorem c4_counterexample :
    ((rebuildProperties
        [⟨1, some "Marina", some "B", some "7", none, none, none, none, none, none,
          none, none, none, some 100⟩,
         ⟨2, some "JVC", some "B", some "7", none, none, none, none, none, none,
          none, none, none, some 200⟩] []).filter
      (fun r => decide (r.building = some "B" ∧ r.unit = some "7"))).length = 2 := by
  decide

/-- Claim C4 (amended): the rebuild emits exactly one property row per
distinct `(community, building, unit)` key among the transactions with
non-null building and unit, and each emitted row is built from a transaction
of its key that no other transaction of that key outranks under
`transaction_date DESC NULLS LAST, id DESC` (chronologically latest, ties
broken by highest id, null dates last). -/
theorem c4_rebuild_rows (ts : List RawTx) (owners : List OwnerRow)
    (k : Option String × Option String × Option String) :
    (((rebuildProperties ts owners).filter (fun r => decide (rowKey r = k))).length
      = if k ∈ (eligibleTx ts).map txKey then 1 else 0)
    ∧ ∀ r ∈ rebuildProperties ts owners, ∃ t ∈ eligibleTx ts,
        txKey t = rowKey r ∧ r = mkPropRow owners t
        ∧ ∀ u ∈ eligibleTx ts, txKey u = rowKey r → laterRank u t = false := by
  constructor
  · unfold rebuildProperties
    rw [count_keyed_rows (buildFor (eligibleTx ts) owners) ((eligibleTx ts).map txKey).dedup
      (fun x hx => buildFor_some _ _ _ (by
        obtain ⟨t, ht, hk⟩ := List.mem_map.mp (List.mem_dedup.mp hx)
        exact ⟨t, ht, hk⟩))
      (List.nodup_dedup _) k]
    by_cases hk : k ∈ (eligibleTx ts).map txKey
    · rw [if_pos (List.mem_dedup.mpr hk), if_pos hk]
    · rw [if_neg (fun hc => hk (List.mem_dedup.mp hc)), if_neg hk]
  · intro r hr
    unfold rebuildProperties at hr
    obtain ⟨k0, hk0, hbf⟩ := List.mem_filterMap.mp hr
    unfold buildFor at hbf
    obtain ⟨m, hm, hmk⟩ := Option.map_eq_some'.mp hbf
    obtain ⟨hmem, hmax⟩ := pickFirstRanked_spec hm
    have hmelig : m ∈ eligibleTx ts := (List.mem_filter.mp hmem).1
    have hmkey : txKey m = k0 := by
      have := (List.mem_filter.mp hmem).2
      simpa using this
    have hrow : rowKey r = txKey m := by
      rw [← hmk]
      rfl
    refine ⟨m, hmelig, hrow.symm, hmk.symm, ?_⟩
    intro u hu huk
    have hu2 : u ∈ (eligibleTx ts).filter (fun t => decide (txKey t = k0)) :=
      List.mem_filter.mpr ⟨hu, by simp [huk, hrow, hmkey]⟩
    exact hmax u hu2

/-- Witness for C4: on the two-community example the key of the first row
occurs exactly once. -/
theorem c4_witness :
    ((rebuildProperties
        [⟨1, some "Marina", some "B", some "7", none, none, none, none, none, none,
          none, none, none, some 100⟩,
         ⟨2, some "JVC", some "B", some "7", none, none, none, none, none, none,
          none, none, none, some 200⟩] []).filter
      (fun r => decide (rowKey r = (some "Marina", some "B", some "7")))).length = 1 :=
  ((c4_rebuild_rows
      [⟨1, some "Marina", some "B", some "7", none, none, none, none, none, none,
        none, none, none, some 100⟩,
       ⟨2, some "JVC", some "B", some "7", none, none, none, none, none, none,
        none, none, none, some 200⟩] []
      (some "Marina", some "B", some "7")).1).trans (by decide)

end DubaiGPT
